import Mathlib

/-!
Verification development for the `config` package: a shallow embedding of
the struct-population engine (`config.go`) and the AWS value pre-processor
(the newer `aws.go` variant with `#subkey` support), together with theorems
about the embedded definitions.

Strings are Lean `String`s (a structure holding a `List Char` in this
toolchain); Go's byte-oriented operations are modelled on the character
list.  Machine integers appearing in `strconv` results are modelled as
`Nat`/`Int` with explicit bounds (`2 ^ 64 - 1`, `2 ^ (b - 1)`, ...).
Panics are modelled by `Option`/`none`; silently absorbed conversion errors
keep their Go return values.
-/

/-! ## Character and string helpers (models of `strings` stdlib calls) -/

/-- Model of `unicode.IsFlyweightSpace` as used by `strings.TrimSpace`:
the Unicode white-space code points recognised by `unicode.IsSpace`. -/
def goIsSpace (c : Char) : Bool :=
  c.toNat = 9 || c.toNat = 10 || c.toNat = 11 || c.toNat = 12 || c.toNat = 13 ||
  c.toNat = 32 || c.toNat = 0x85 || c.toNat = 0xA0 || c.toNat = 0x1680 ||
  (0x2000 ≤ c.toNat && c.toNat ≤ 0x200A) ||
  c.toNat = 0x2028 || c.toNat = 0x2029 || c.toNat = 0x202F ||
  c.toNat = 0x205F || c.toNat = 0x3000

/-- Trim `goIsSpace` characters from both ends of a character list. -/
def trimChars (cs : List Char) : List Char :=
  ((cs.dropWhile goIsSpace).reverse.dropWhile goIsSpace).reverse

/-- Model of `strings.TrimSpace`. -/
def goTrimSpace (s : String) : String :=
  ⟨trimChars s.data⟩

/-- ASCII lower-casing of one character, the `unicode.ToLower` action on the
ASCII range (the range exercised by this package's keys). -/
def goToLowerChar (c : Char) : Char :=
  if 65 ≤ c.toNat ∧ c.toNat ≤ 90 then Char.ofNat (c.toNat + 32) else c

/-- Model of `strings.ToLower`. -/
def goToLower (s : String) : String :=
  ⟨s.data.map goToLowerChar⟩

/-- Split a character list at the first occurrence of `sep`; `none` when the
character is absent.  Models the `strings.Contains`/`strings.SplitN(s, sep, 2)`
pair used by `stringsToMap` (with `sep = "="`, a single character). -/
def splitFirstChar (sep : Char) : List Char → Option (List Char × List Char)
  | [] => none
  | c :: rest =>
    if c = sep then some ([], rest)
    else (splitFirstChar sep rest).map (fun p => (c :: p.1, p.2))

/-- Model of `strings.Split` with a single-character separator, as used by
`checkPostfixAndStrip` (separator `"#"`). -/
def splitOnChar (sep : Char) : List Char → List (List Char)
  | [] => [[]]
  | c :: rest =>
    if c = sep then [] :: splitOnChar sep rest
    else
      match splitOnChar sep rest with
      | [] => [[c]]
      | h :: t => (c :: h) :: t

/-- Leftmost occurrence of the separator sequence `sep` in a list: the part
before it and the part after it. -/
def findSep (sep : List Char) : List Char → Option (List Char × List Char)
  | [] => none
  | c :: rest =>
    if sep.isPrefixOf (c :: rest) then some ([], (c :: rest).drop sep.length)
    else (findSep sep rest).map (fun p => (c :: p.1, p.2))

/-- Fuel-driven splitting on a separator sequence; with fuel above the input
length and a non-empty separator this is `strings.Split`. -/
def splitOnSepFuel : Nat → List Char → List Char → List (List Char)
  | 0, _, cs => [cs]
  | fuel + 1, sep, cs =>
    match findSep sep cs with
    | none => [cs]
    | some (pre, post) => pre :: splitOnSepFuel fuel sep post

/-- Model of `strings.Split` for a non-empty separator. -/
def goSplit (s sep : String) : List String :=
  (splitOnSepFuel (s.data.length + 1) sep.data s.data).map (fun l => ⟨l⟩)

/-! ## Models of the `strconv` conversions invoked by `convertAndSetValue`

Each model returns the value Go's function returns after the caller's
`val, _ := ...` discards the error: syntax errors yield the zero value,
range errors yield the saturated boundary value. -/

/-- Decimal digits to a number; `none` when empty or containing a non-digit.
Models `strconv`'s base-10 digit scan. -/
def digitsAcc : List Char → Nat → Option Nat
  | [], acc => some acc
  | c :: rest, acc =>
    if 48 ≤ c.toNat ∧ c.toNat ≤ 57 then digitsAcc rest (acc * 10 + (c.toNat - 48))
    else none

/-- A non-empty all-digit list read as a decimal `Nat`. -/
def digitsToNat (cs : List Char) : Option Nat :=
  match cs with
  | [] => none
  | _ => digitsAcc cs 0

/-- Unchecked decimal read of an all-digit list. -/
def natOfDigits (cs : List Char) : Nat :=
  cs.foldl (fun a c => a * 10 + (c.toNat - 48)) 0

/-- Model of `strconv.ParseUint(s, 10, b)` with the error discarded:
signs and non-digits are syntax errors (value 0); values above `2 ^ b - 1`
saturate to `2 ^ b - 1` (Go's range-error return). -/
def goParseUint (s : String) (b : Nat) : Nat :=
  match digitsToNat s.data with
  | none => 0
  | some n => if n > 2 ^ b - 1 then 2 ^ b - 1 else n

/-- Model of `strconv.ParseInt(s, 10, b)` with the error discarded.
Go parses the magnitude with `ParseUint(_, 10, 64)` (so it saturates at
`2 ^ 64 - 1`), then clamps to `[-2 ^ (b-1), 2 ^ (b-1) - 1]` on range error. -/
def goParseInt (s : String) (b : Nat) : Int :=
  match s.data with
  | [] => 0
  | c :: rest =>
    let neg := c = '-'
    let digits := if c = '-' ∨ c = '+' then rest else c :: rest
    match digitsToNat digits with
    | none => 0
    | some n0 =>
      let un := min n0 (2 ^ 64 - 1)
      let cutoff := 2 ^ (b - 1)
      if neg then (if un > cutoff then -(cutoff : Int) else -(un : Int))
      else (if un ≥ cutoff then (cutoff : Int) - 1 else (un : Int))

/-- Model of `strconv.ParseBool` with the error discarded: the six true
tokens give `true`; the six false tokens and every syntax error give
`false` (the zero value Go returns alongside the error). -/
def goParseBool (s : String) : Bool :=
  s = "1" || s = "t" || s = "T" || s = "true" || s = "TRUE" || s = "True"

/-- Result of a float conversion.  Finite values are carried as exact
rationals: rounding to the IEEE width is not modelled (no claim about this
package depends on rounded float values), but the syntax-error-to-zero and
range-error-to-infinity dispositions of `strconv.ParseFloat` are. -/
inductive FloatVal where
  | finite (q : ℚ)
  | inf (neg : Bool)
  | nan
  deriving DecidableEq

/-- Largest finite magnitude of the IEEE width `b` (32 or 64). -/
def maxFloat (b : Nat) : ℚ :=
  if b = 32 then (2 ^ 24 - 1) * 2 ^ 104 else (2 ^ 53 - 1) * 2 ^ 971

/-- Assemble a parsed decimal float; magnitudes beyond the width's largest
finite value become infinities (`strconv`'s range-error return). -/
def mkFloat (neg : Bool) (mant : Nat) (fracLen : Nat) (ex : Int) (b : Nat) : FloatVal :=
  let q : ℚ := (mant : ℚ) / ((10 : ℚ) ^ fracLen) * ((10 : ℚ) ^ ex)
  let q := if neg then -q else q
  if q > maxFloat b then FloatVal.inf false
  else if q < -(maxFloat b) then FloatVal.inf true
  else FloatVal.finite q

/-- Model of `strconv.ParseFloat(s, b)` with the error discarded, on decimal
literals and the case-insensitive `inf`/`infinity`/`nan` specials.  Digit
underscores and hexadecimal float literals are not modelled; no claim
exercises them. -/
def goParseFloat (s : String) (b : Nat) : FloatVal :=
  let cs := s.data
  let signSplit : Bool × List Char :=
    match cs with
    | '-' :: r => (true, r)
    | '+' :: r => (false, r)
    | r => (false, r)
  let neg := signSplit.1
  let cs1 := signSplit.2
  let low := cs1.map goToLowerChar
  if low = "inf".data ∨ low = "infinity".data then FloatVal.inf neg
  else if low = "nan".data then FloatVal.nan
  else
    let intPart := cs1.takeWhile Char.isDigit
    let rest1 := cs1.dropWhile Char.isDigit
    let fracSplit : List Char × List Char :=
      match rest1 with
      | '.' :: r => (r.takeWhile Char.isDigit, r.dropWhile Char.isDigit)
      | r => ([], r)
    let fracPart := fracSplit.1
    let rest2 := fracSplit.2
    if intPart = [] ∧ fracPart = [] then FloatVal.finite 0
    else
      let mant := natOfDigits (intPart ++ fracPart)
      match rest2 with
      | [] => mkFloat neg mant fracPart.length 0 b
      | e :: r3 =>
        if e = 'e' ∨ e = 'E' then
          let expSplit : Bool × List Char :=
            match r3 with
            | '-' :: rr => (true, rr)
            | '+' :: rr => (false, rr)
            | rr => (false, rr)
          match digitsToNat expSplit.2 with
          | some ev =>
            mkFloat neg mant fracPart.length (if expSplit.1 then -(ev : Int) else (ev : Int)) b
          | none => FloatVal.finite 0
        else FloatVal.finite 0

/-- Unit table of `time.ParseDuration`: nanoseconds per unit token. -/
def durUnits : List (List Char × Nat) :=
  [("ns".data, 1), ("us".data, 1000), ("µs".data, 1000), ("μs".data, 1000),
   ("ms".data, 1000000), ("s".data, 1000000000), ("m".data, 60000000000),
   ("h".data, 3600000000000)]

/-- One pass of `time.ParseDuration`'s component loop, with fuel for
termination (each component consumes at least one character).  Accumulates
nanoseconds; `none` models a parse error.  Fractions are modelled with
exact integer truncation where Go uses float arithmetic; overflow guards
mirror Go's `2 ^ 63` checks. -/
def durLoop : Nat → List Char → Nat → Option Nat
  | 0, _, _ => none
  | fuel + 1, cs, d =>
    if cs = [] then some d
    else
      let ip := cs.takeWhile Char.isDigit
      let r1 := cs.dropWhile Char.isDigit
      let fracSplit : List Char × List Char :=
        match r1 with
        | '.' :: r => (r.takeWhile Char.isDigit, r.dropWhile Char.isDigit)
        | r => ([], r)
      let fp := fracSplit.1
      let r2 := fracSplit.2
      if ip = [] ∧ fp = [] then none
      else
        let v := natOfDigits ip
        if v > 2 ^ 63 - 1 then none
        else
          let isUnitChar := fun (c : Char) => !(Char.isDigit c || c = '.')
          let us := r2.takeWhile isUnitChar
          let r3 := r2.dropWhile isUnitChar
          if us = [] then none
          else
            match durUnits.lookup us with
            | none => none
            | some unit =>
              if v > 2 ^ 63 / unit then none
              else
                let v2 := v * unit + natOfDigits fp * unit / 10 ^ fp.length
                if v2 > 2 ^ 63 then none
                else if d + v2 > 2 ^ 63 then none
                else durLoop fuel r3 (d + v2)

/-- Model of `time.ParseDuration` with the error discarded (`d, _ := ...`):
errors yield duration 0; otherwise the signed nanosecond count. -/
def goParseDuration (s : String) : Int :=
  let cs := s.data
  let signSplit : Bool × List Char :=
    match cs with
    | '-' :: r => (true, r)
    | '+' :: r => (false, r)
    | r => (false, r)
  let neg := signSplit.1
  let cs1 := signSplit.2
  if cs1 = ['0'] then 0
  else if cs1 = [] then 0
  else
    match durLoop (cs1.length + 1) cs1 0 with
    | none => 0
    | some d =>
      if neg then -(d : Int)
      else if d > 2 ^ 63 - 1 then 0
      else (d : Int)

/-! ## The flat string map

Go's `map[string]string` is represented by an association list with unique
keys; assignment `m[k] = v` is `mapInsert`, indexing `m[k]` is `mapFind`
(with the comma-ok default `""` applied at use sites, as in the source). -/

/-- Assignment into the map: overwrite in place, else append. -/
def mapInsert : List (String × String) → String → String → List (String × String)
  | [], k, v => [(k, v)]
  | (k', v') :: rest, k, v =>
    if k' = k then (k, v) :: rest else (k', v') :: mapInsert rest k v

/-- Map lookup. -/
def mapFind : List (String × String) → String → Option String
  | [], _ => none
  | (k', v') :: rest, k => if k' = k then some v' else mapFind rest k

/-- Value of the last entry carrying key `k` in an entry sequence. -/
def lastVal : List (String × String) → String → Option String
  | [], _ => none
  | (k', v') :: rest, k =>
    match lastVal rest k with
    | some v => some v
    | none => if k' = k then some v' else none

theorem mapFind_insert_self (m : List (String × String)) (k v : String) :
    mapFind (mapInsert m k v) k = some v := by
  induction m with
  | nil => simp [mapInsert, mapFind]
  | cons p rest ih =>
    obtain ⟨k', v'⟩ := p
    by_cases h : k' = k
    · simp [mapInsert, h, mapFind]
    · simp [mapInsert, h, mapFind, ih]

theorem mapFind_insert_ne (m : List (String × String)) (k k' v : String)
    (h : k' ≠ k) : mapFind (mapInsert m k' v) k = mapFind m k := by
  induction m with
  | nil => simp [mapInsert, mapFind, h]
  | cons p rest ih =>
    obtain ⟨k0, v0⟩ := p
    by_cases h0 : k0 = k'
    · subst h0
      simp [mapInsert, mapFind, h]
    · by_cases h1 : k0 = k
      · simp [mapInsert, mapFind, h0, h1, Ne.symm h]
      · simp [mapInsert, mapFind, h0, h1, ih]

theorem mapInsert_of_find_eq (m : List (String × String)) (k v : String)
    (h : mapFind m k = some v) : mapInsert m k v = m := by
  induction m with
  | nil => simp [mapFind] at h
  | cons p rest ih =>
    obtain ⟨k', v'⟩ := p
    by_cases h0 : k' = k
    · subst h0
      simp [mapFind] at h
      simp [mapInsert, h]
    · simp [mapFind, h0] at h
      simp [mapInsert, h0, ih h]

theorem mapFind_mem (m : List (String × String)) (k v : String)
    (h : mapFind m k = some v) : (k, v) ∈ m := by
  induction m with
  | nil => simp [mapFind] at h
  | cons p rest ih =>
    obtain ⟨k', v'⟩ := p
    by_cases h0 : k' = k
    · subst h0
      simp [mapFind] at h
      simp [h]
    · simp [mapFind, h0] at h
      exact List.mem_cons_of_mem _ (ih h)

theorem mem_mapInsert (m : List (String × String)) (k v : String) (p : String × String)
    (h : p ∈ mapInsert m k v) : p = (k, v) ∨ p ∈ m := by
  induction m with
  | nil => simpa [mapInsert] using h
  | cons q rest ih =>
    obtain ⟨k', v'⟩ := q
    by_cases h0 : k' = k
    · simp [mapInsert, h0] at h
      rcases h with h | h
      · exact Or.inl (by simp [h])
      · exact Or.inr (List.mem_cons_of_mem _ h)
    · simp [mapInsert, h0] at h
      rcases h with h | h
      · exact Or.inr (by simp [h])
      · rcases ih h with h1 | h1
        · exact Or.inl h1
        · exact Or.inr (List.mem_cons_of_mem _ h1)

/-- Folding entry-wise insertion with an effective-value function: the final
lookup at `k` is the transformed last entry for `k`, or the old binding. -/
theorem foldInsert_find (eff : String → String → String) :
    ∀ (es : List (String × String)) (m : List (String × String)) (k : String),
      mapFind (es.foldl (fun m p => mapInsert m p.1 (eff p.1 p.2)) m) k =
        match lastVal es k with
        | some v => some (eff k v)
        | none => mapFind m k := by
  intro es
  induction es with
  | nil => intro m k; simp [lastVal]
  | cons p rest ih =>
    intro m k
    obtain ⟨k', v'⟩ := p
    simp only [List.foldl_cons]
    rw [ih]
    cases hl : lastVal rest k with
    | some v => simp [lastVal, hl]
    | none =>
      by_cases hk : k' = k
      · subst hk
        simp [lastVal, hl, mapFind_insert_self]
      · simp [lastVal, hl, hk, mapFind_insert_ne _ _ _ _ hk]

/-! ## The Builder (config store) and the flat-map normalizer -/

/-- The Builder state of `config.go`: the two delimiters, the flat config
map, and the optional value pre-processor.  The `ValuePreProcessor`
interface's single method `PreProcessValue(key, value) string` is a
function `String → String → String`. -/
structure Builder where
  structDelim : String
  sliceDelim : String
  configMap : List (String × String)
  valuePreProcessor : Option (String → String → String)

/-- `newBuilder`: empty map, `__` struct delimiter, single-space slice
delimiter, no pre-processor. -/
def newBuilder : Builder :=
  { structDelim := "__", sliceDelim := " ", configMap := [], valuePreProcessor := none }

/-- `Builder.WithValuePreProcessor`. -/
def withValuePreProcessor (c : Builder) (p : String → String → String) : Builder :=
  { c with valuePreProcessor := some p }

/-- The effective value written by `mergeConfig` for one entry: the
pre-processor's output when one is configured, else the raw value. -/
def effectiveValue (c : Builder) (k v : String) : String :=
  match c.valuePreProcessor with
  | some p => p k v
  | none => v

/-- `Builder.mergeConfig`: write every entry of the incoming map (taken as
an entry sequence, the iteration of Go's `range`) into the config map,
pre-processed when a pre-processor is configured, overwriting per key. -/
def mergeConfig (c : Builder) (entries : List (String × String)) : Builder :=
  { c with
    configMap :=
      entries.foldl (fun m p => mapInsert m p.1 (effectiveValue c p.1 p.2)) c.configMap }

/-- One line of `stringsToMap`: `none` when the line has no `=`; otherwise
split at the first `=`, lower-case the key, and drop the line when the key
or the value is empty. -/
def normalizeLine (s : String) : Option (String × String) :=
  match splitFirstChar '=' s.data with
  | none => none
  | some (rawKey, rawVal) =>
    let key := rawKey.map goToLowerChar
    if key ≠ [] ∧ rawVal ≠ [] then some (⟨key⟩, ⟨rawVal⟩) else none

/-- `stringsToMap`: fold the lines into a fresh map; a repeated key keeps
the last occurrence. -/
def stringsToMap (ss : List String) : List (String × String) :=
  ss.foldl
    (fun m s =>
      match normalizeLine s with
      | none => m
      | some (k, v) => mapInsert m k v)
    []

/-- The post-file-read body of `Builder.From` (and of `FromEnv` with the
environment's lines): normalize the raw lines and merge them. -/
def fromLines (c : Builder) (lines : List String) : Builder :=
  mergeConfig c (stringsToMap lines)

/-- A chain of `From`/`FromEnv` merges, given each source's raw lines. -/
def runMerges (c : Builder) (srcs : List (List String)) : Builder :=
  srcs.foldl fromLines c

theorem charOfNat_toNat (n : Nat) (h1 : 97 ≤ n) (h2 : n ≤ 122) :
    (Char.ofNat n).toNat = n := by
  have hv : n.isValidChar := Or.inl (by omega)
  rw [Char.ofNat]
  split
  · rfl
  · exact absurd hv (by assumption)

theorem goToLowerChar_idem (c : Char) :
    goToLowerChar (goToLowerChar c) = goToLowerChar c := by
  unfold goToLowerChar
  split
  · rename_i h
    have ht : (Char.ofNat (c.toNat + 32)).toNat = c.toNat + 32 :=
      charOfNat_toNat _ (by omega) (by omega)
    rw [if_neg]
    rw [ht]
    omega
  · rfl

theorem lowerChars_idem (l : List Char) :
    (l.map goToLowerChar).map goToLowerChar = l.map goToLowerChar := by
  induction l with
  | nil => rfl
  | cons c rest ih => simp [goToLowerChar_idem, ih]

/-- Every entry produced by `normalizeLine` has a non-empty lower-cased key
and a non-empty value. -/
theorem normalizeLine_sound (s k v : String) (h : normalizeLine s = some (k, v)) :
    k ≠ "" ∧ goToLower k = k ∧ v ≠ "" := by
  unfold normalizeLine at h
  cases hs : splitFirstChar '=' s.data with
  | none => rw [hs] at h; simp at h
  | some p =>
    obtain ⟨rk, rv⟩ := p
    rw [hs] at h
    simp only [] at h
    by_cases hc : rk.map goToLowerChar ≠ [] ∧ rv ≠ []
    · rw [if_pos hc] at h
      injection h with hp
      rw [Prod.mk.injEq] at hp
      obtain ⟨hk, hv⟩ := hp
      subst hk
      subst hv
      refine ⟨?_, ?_, ?_⟩
      · intro hemp
        exact hc.1 (by simpa using congrArg String.data hemp)
      · show goToLower ⟨rk.map goToLowerChar⟩ = ⟨rk.map goToLowerChar⟩
        unfold goToLower
        exact congrArg (fun l => (⟨l⟩ : String)) (lowerChars_idem rk)
      · intro hemp
        exact hc.2 (by simpa using congrArg String.data hemp)
    · rw [if_neg hc] at h
      simp at h

/-! ## The target record model

A Go struct type reachable from `To` is a tree of fields.  `ScalarType`
carries the concrete type of a non-struct, non-slice field: the fifteen
built-in types cased by `convertAndSetValue`'s type switch, plus `named`
for any other (e.g. user-declared) type whose underlying kind is one of
the primitives — the type switch matches concrete types, so `named` falls
to the panicking default case. -/

inductive ScalarType where
  | string
  | bool
  | duration
  | int
  | int8
  | int16
  | int32
  | int64
  | uint
  | uint8
  | uint16
  | uint32
  | uint64
  | float32
  | float64
  | named (nm : String) (underlying : ScalarType)
  deriving DecidableEq

/-- Whether the scalar type is one of the fifteen concrete types the
converter's type switch handles. -/
def isBuiltin : ScalarType → Bool
  | .named _ _ => false
  | _ => true

mutual
/-- A field type: scalar leaf, slice of scalars, or nested struct. -/
inductive GoType where
  | scalar (t : ScalarType)
  | slice (elem : ScalarType)
  | struct (fields : GoFields)

/-- The field list of a struct: declared name, optional `config` tag,
field type. -/
inductive GoFields where
  | nil
  | cons (name : String) (tag : Option String) (type : GoType) (rest : GoFields)
end

/-- A populated Go value.  A slice value is `none` for a nil slice and
`some elems` for an allocated one — the distinction the source's
"slice remains nil" comment is about. -/
inductive GoValue where
  | vstr (s : String)
  | vbool (b : Bool)
  | vint (t : ScalarType) (n : Int)
  | vuint (t : ScalarType) (n : Nat)
  | vfloat (t : ScalarType) (v : FloatVal)
  | vslice (elems : Option (List GoValue))
  | vstruct (fields : List (String × GoValue))

/-- Go zero value of a scalar type (a named type's zero is its underlying
type's zero). -/
def zeroScalar : ScalarType → GoValue
  | .string => .vstr ""
  | .bool => .vbool false
  | .duration => .vint .duration 0
  | .int => .vint .int 0
  | .int8 => .vint .int8 0
  | .int16 => .vint .int16 0
  | .int32 => .vint .int32 0
  | .int64 => .vint .int64 0
  | .uint => .vuint .uint 0
  | .uint8 => .vuint .uint8 0
  | .uint16 => .vuint .uint16 0
  | .uint32 => .vuint .uint32 0
  | .uint64 => .vuint .uint64 0
  | .float32 => .vfloat .float32 (.finite 0)
  | .float64 => .vfloat .float64 (.finite 0)
  | .named _ u => zeroScalar u

mutual
/-- Go zero value of a field type: zero scalar, nil slice, or a struct of
zeroed fields. -/
def zeroValue : GoType → GoValue
  | .scalar t => zeroScalar t
  | .slice _ => .vslice none
  | .struct fs => .vstruct (zeroFields fs)

def zeroFields : GoFields → List (String × GoValue)
  | .nil => []
  | .cons name _ t rest => (name, zeroValue t) :: zeroFields rest
end

/-! ## The converter, slice decomposition and key derivation -/

/-- `convertAndSetValue`: dispatch on the destination's concrete type and
set the value the matching `strconv`/`time` call returns with its error
discarded.  A type not in the switch hits the panicking default: `none`. -/
def convertAndSetValue (t : ScalarType) (s : String) : Option GoValue :=
  match t with
  | .string => some (.vstr s)
  | .duration => some (.vint .duration (goParseDuration s))
  | .int => some (.vint .int (goParseInt s 64))
  | .int8 => some (.vint .int8 (goParseInt s 8))
  | .int16 => some (.vint .int16 (goParseInt s 16))
  | .int32 => some (.vint .int32 (goParseInt s 32))
  | .int64 => some (.vint .int64 (goParseInt s 64))
  | .uint => some (.vuint .uint (goParseUint s 64))
  | .uint8 => some (.vuint .uint8 (goParseUint s 8))
  | .uint16 => some (.vuint .uint16 (goParseUint s 16))
  | .uint32 => some (.vuint .uint32 (goParseUint s 32))
  | .uint64 => some (.vuint .uint64 (goParseUint s 64))
  | .bool => some (.vbool (goParseBool s))
  | .float32 => some (.vfloat .float32 (goParseFloat s 32))
  | .float64 => some (.vfloat .float64 (goParseFloat s 64))
  | .named _ _ => none

/-- `stringToSlice`: panic (`none`) on an empty delimiter; trim the input,
return the empty token list when it trims away, else split on the
delimiter, trim every token and drop the empty ones. -/
def stringToSlice (s delim : String) : Option (List String) :=
  if delim = "" then none
  else
    let t := goTrimSpace s
    if t = "" then some []
    else some (((goSplit t delim).map goTrimSpace).filter (fun v => v ≠ ""))

/-- The element-wise conversion loop of `convertAndSetSlice`; `none` when
converting any element panics. -/
def convertList (elem : ScalarType) : List String → Option (List GoValue)
  | [] => some []
  | s :: rest =>
    match convertAndSetValue elem s, convertList elem rest with
    | some v, some l => some (v :: l)
    | _, _ => none

/-- `convertAndSetSlice`: with no values the loop never runs and the slice
stays nil; otherwise each value is converted and appended. -/
def convertAndSetSlice (elem : ScalarType) (values : List String) : Option GoValue :=
  match values with
  | [] => some (.vslice none)
  | _ =>
    match convertList elem values with
    | none => none
    | some l => some (.vslice (some l))

/-- `getKey`: `none` for the ignore sentinel `-` (after trimming); the
trimmed tag overrides the field name when non-empty; the key is the
lower-cased prefix-plus-name. -/
def getKey (name : String) (tag : Option String) (pre : String) : Option String :=
  match tag with
  | some tg0 =>
    let tg := goTrimSpace tg0
    if tg = "-" then none
    else if tg ≠ "" then some (goToLower (pre ++ tg))
    else some (goToLower (pre ++ name))
  | none => some (goToLower (pre ++ name))

mutual
/-- Populate one field from the flat map: structs recurse with the key plus
the struct delimiter, slices go through `stringToSlice` and
`convertAndSetSlice`, everything else through `convertAndSetValue`.
A missing key reads as `""` (Go map indexing's zero value). -/
def populateFieldValue (c : Builder) (t : GoType) (key : String) : Option GoValue :=
  match t with
  | .struct fs =>
    match populateStructRecursively c fs (key ++ c.structDelim) with
    | none => none
    | some l => some (.vstruct l)
  | .slice elem =>
    match stringToSlice ((mapFind c.configMap key).getD "") c.sliceDelim with
    | none => none
    | some values => convertAndSetSlice elem values
  | .scalar st => convertAndSetValue st ((mapFind c.configMap key).getD "")

/-- `populateStructRecursively`: walk the fields in order; a field whose
key derivation returns `none` is skipped (left at its zero value); panics
(`none`) propagate. -/
def populateStructRecursively (c : Builder) (fs : GoFields) (pre : String) :
    Option (List (String × GoValue)) :=
  match fs with
  | .nil => some []
  | .cons name tag t rest =>
    match getKey name tag pre with
    | none =>
      match populateStructRecursively c rest pre with
      | none => none
      | some l => some ((name, zeroValue t) :: l)
    | some key =>
      match populateFieldValue c t key with
      | none => none
      | some v =>
        match populateStructRecursively c rest pre with
        | none => none
        | some l => some ((name, v) :: l)
end

/-! ## The AWS value pre-processor (`aws.go`, the `#subkey`-capable variant)

The secrets-manager and parameter-store clients are external collaborators:
they are modelled as functions returning `none` for a failed lookup (which
the source turns into a panic). -/

/-- `"sm://"`, the anchored secrets-manager pattern `^sm://`. -/
def smPrefixChars : List Char := "sm://".data

/-- `"ssm://"`, the anchored parameter-store pattern `^ssm://`. -/
def ssmPrefixChars : List Char := "ssm://".data

/-- `checkPrefixAndStrip`: an anchored pattern `^pat` matches exactly when
`pat` is a prefix, and `ReplaceAllString` with an anchored pattern removes
the single match at position 0; a non-match returns the input unchanged. -/
def checkPrefixAndStrip (pat : List Char) (s : List Char) : List Char × Bool :=
  if pat.isPrefixOf s then (s.drop pat.length, true) else (s, false)

/-- `checkPostfixAndStrip`: `strings.Split(s, "#")`; with more than one
part return the first two, else the sole part and the empty sub-key. -/
def checkPostfixAndStrip (s : List Char) : List Char × List Char :=
  match splitOnChar '#' s with
  | [] => (s, [])
  | [one] => (one, [])
  | a :: b :: _ => (a, b)

/-- Hexadecimal digit value. -/
def hexVal (c : Char) : Option Nat :=
  if 48 ≤ c.toNat ∧ c.toNat ≤ 57 then some (c.toNat - 48)
  else if 97 ≤ c.toNat ∧ c.toNat ≤ 102 then some (c.toNat - 87)
  else if 65 ≤ c.toNat ∧ c.toNat ≤ 70 then some (c.toNat - 55)
  else none

/-- JSON whitespace skip. -/
def jsonWs (cs : List Char) : List Char :=
  cs.dropWhile (fun c => c = ' ' || c = '\t' || c = '\n' || c = '\r')

/-- Body of a JSON string after the opening quote: collected characters and
the remainder after the closing quote.  Escapes cover the JSON set;
`\uXXXX` is read as a single code point (surrogate pairing, which no claim
exercises, is not combined). -/
def jsonStringAux : Nat → List Char → List Char → Option (List Char × List Char)
  | 0, _, _ => none
  | fuel + 1, acc, cs =>
    match cs with
    | [] => none
    | '"' :: rest => some (acc.reverse, rest)
    | '\\' :: e :: rest =>
      match e with
      | '"' => jsonStringAux fuel ('"' :: acc) rest
      | '\\' => jsonStringAux fuel ('\\' :: acc) rest
      | '/' => jsonStringAux fuel ('/' :: acc) rest
      | 'b' => jsonStringAux fuel ('\x08' :: acc) rest
      | 'f' => jsonStringAux fuel ('\x0c' :: acc) rest
      | 'n' => jsonStringAux fuel ('\n' :: acc) rest
      | 'r' => jsonStringAux fuel ('\r' :: acc) rest
      | 't' => jsonStringAux fuel ('\t' :: acc) rest
      | 'u' =>
        match rest with
        | h1 :: h2 :: h3 :: h4 :: rest2 =>
          match hexVal h1, hexVal h2, hexVal h3, hexVal h4 with
          | some a, some b, some c, some d =>
            jsonStringAux fuel (Char.ofNat (a * 4096 + b * 256 + c * 16 + d) :: acc) rest2
          | _, _, _, _ => none
        | _ => none
      | _ => none
    | c :: rest => if c.toNat < 32 then none else jsonStringAux fuel (c :: acc) rest

/-- The `"key": "value"` pair loop of a JSON object of string fields;
a non-string value is an unmarshal type error (`none`); a repeated key is
overwritten, as `json.Unmarshal` does into a map. -/
def jsonPairs : Nat → List Char → List (String × String) →
    Option (List (String × String) × List Char)
  | 0, _, _ => none
  | fuel + 1, cs, acc =>
    match jsonWs cs with
    | '"' :: rest =>
      match jsonStringAux (rest.length + 1) [] rest with
      | none => none
      | some (kcs, cs2) =>
        match jsonWs cs2 with
        | ':' :: cs3 =>
          match jsonWs cs3 with
          | '"' :: rest2 =>
            match jsonStringAux (rest2.length + 1) [] rest2 with
            | none => none
            | some (vcs, cs4) =>
              let acc2 := mapInsert acc ⟨kcs⟩ ⟨vcs⟩
              match jsonWs cs4 with
              | ',' :: cs6 => jsonPairs fuel cs6 acc2
              | '}' :: cs7 => some (acc2, cs7)
              | _ => none
          | _ => none
        | _ => none
    | _ => none

/-- Model of `json.Unmarshal([]byte(s), &map[string]string)`: `none` is an
unmarshal error (the source panics on it). -/
def parseStringMap (s : String) : Option (List (String × String)) :=
  match jsonWs s.data with
  | '{' :: rest =>
    match jsonWs rest with
    | '}' :: tail => if jsonWs tail = [] then some [] else none
    | _ =>
      match jsonPairs (rest.length + 1) rest [] with
      | none => none
      | some (m, tail) => if jsonWs tail = [] then some m else none
  | _ => none

/-- `AWSSecretManagerValuePreProcessor` with its two clients abstracted:
`getSecret name` is `GetSecretValue` followed by `*resp.SecretString`,
`getParameter name decrypt` is `GetParameter` followed by
`*resp.Parameter.Value`; `none` models a lookup error (a panic in the
source). -/
structure AWSPre where
  decryptParameterStoreValues : Bool
  getSecret : String → Option String
  getParameter : String → Bool → Option String

/-- `processConfigItem` (the body of `PreProcessValue`): dispatch on the
anchored `sm://` and `ssm://` patterns; on the secrets-manager path an
optional `#subkey` selects a field of a JSON-object secret, and a missing
subkey or unparsable payload panics (`none`); any other value is returned
unchanged. -/
def processConfigItem (p : AWSPre) (key value : String) : Option String :=
  let c1 := checkPrefixAndStrip smPrefixChars value.data
  if c1.2 then
    let c2 := checkPostfixAndStrip c1.1
    match p.getSecret ⟨c2.1⟩ with
    | none => none
    | some secret =>
      if c2.2 = [] then some secret
      else
        match parseStringMap secret with
        | none => none
        | some jsonMap =>
          match mapFind jsonMap ⟨c2.2⟩ with
          | some sv => some sv
          | none => none
  else
    let c3 := checkPrefixAndStrip ssmPrefixChars c1.1
    if c3.2 then p.getParameter ⟨c3.1⟩ p.decryptParameterStoreValues
    else some value

/-! ## Store lemmas and theorems -/

theorem string_mk_eq_empty (l : List Char) : ((⟨l⟩ : String) = "") ↔ l = [] := by
  constructor
  · intro h
    have := congrArg String.data h
    simpa using this
  · intro h
    rw [h]

theorem foldInsert_id (eff : String → String → String) :
    ∀ (es m : List (String × String)),
      (∀ p ∈ es, mapFind m p.1 = some (eff p.1 p.2)) →
      es.foldl (fun m p => mapInsert m p.1 (eff p.1 p.2)) m = m := by
  intro es
  induction es with
  | nil => intro m _; rfl
  | cons p rest ih =>
    intro m hmem
    obtain ⟨k, v⟩ := p
    have h1 : mapFind m k = some (eff k v) := hmem (k, v) (by simp)
    have h2 : mapInsert m k (eff k v) = m := mapInsert_of_find_eq _ _ _ h1
    simp only [List.foldl_cons, h2]
    exact ih m (fun q hq => hmem q (List.mem_cons_of_mem _ hq))

theorem lastVal_eq_none (k : String) :
    ∀ es : List (String × String), k ∉ es.map Prod.fst → lastVal es k = none := by
  intro es
  induction es with
  | nil => intro _; rfl
  | cons p rest ih =>
    intro h
    obtain ⟨k', v'⟩ := p
    simp only [List.map_cons, List.mem_cons] at h
    push_neg at h
    have h1 : lastVal rest k = none := ih h.2
    have h2 : ¬k' = k := fun he => h.1 he.symm
    simp [lastVal, h1, h2]

theorem lastVal_of_mem_nodup (k v : String) :
    ∀ es : List (String × String), (k, v) ∈ es → (es.map Prod.fst).Nodup →
      lastVal es k = some v := by
  intro es
  induction es with
  | nil => intro h; simp at h
  | cons p rest ih =>
    intro hmem hnd
    obtain ⟨k', v'⟩ := p
    simp only [List.map_cons, List.nodup_cons] at hnd
    rcases List.mem_cons.mp hmem with he | hm
    · have he1 : k = k' := congrArg Prod.fst he
      have he2 : v = v' := congrArg Prod.snd he
      subst he1
      subst he2
      have h1 : lastVal rest k = none := lastVal_eq_none k rest (fun hin => hnd.1 hin)
      simp [lastVal, h1]
    · have h1 : lastVal rest k = some v := ih hm hnd.2
      simp [lastVal, h1]

theorem foldInsert_mem (eff : String → String → String) :
    ∀ (es m : List (String × String)) (p : String × String),
      p ∈ es.foldl (fun m q => mapInsert m q.1 (eff q.1 q.2)) m →
      p ∈ m ∨ ∃ q, q ∈ es ∧ p = (q.1, eff q.1 q.2) := by
  intro es
  induction es with
  | nil => intro m p hp; exact Or.inl hp
  | cons q rest ih =>
    intro m p hp
    simp only [List.foldl_cons] at hp
    rcases ih _ p hp with h1 | ⟨r, hr, he⟩
    · rcases mem_mapInsert m q.1 (eff q.1 q.2) p h1 with he | hm
      · exact Or.inr ⟨q, by simp, he⟩
      · exact Or.inl hm
    · exact Or.inr ⟨r, List.mem_cons_of_mem _ hr, he⟩

/-- C3: after a merge, a key present in the entry sequence holds the
effective (pre-processed when configured, else raw) value of the last
entry written for it, and every other key keeps its previous binding —
later merges override earlier ones per key only. -/
theorem mergeConfigLastWrite (c : Builder) (es : List (String × String)) (k : String) :
    mapFind (mergeConfig c es).configMap k =
      match lastVal es k with
      | some v => some (effectiveValue c k v)
      | none => mapFind c.configMap k :=
  foldInsert_find (effectiveValue c) es c.configMap k

/-- C9: with the pre-processor a pure function of the key/value pair (the
model's pre-processors are), merging the same unique-keyed entry set twice
in succession equals merging it once. -/
theorem mergeIdempotent (c : Builder) (es : List (String × String))
    (h : (es.map Prod.fst).Nodup) :
    mergeConfig (mergeConfig c es) es = mergeConfig c es := by
  have hfind : ∀ p ∈ es, mapFind (mergeConfig c es).configMap p.1 =
      some (effectiveValue c p.1 p.2) := by
    intro p hp
    obtain ⟨k, v⟩ := p
    have h1 := foldInsert_find (effectiveValue c) es c.configMap k
    have h2 : lastVal es k = some v := lastVal_of_mem_nodup k v es hp h
    rw [h2] at h1
    exact h1
  have key : (mergeConfig (mergeConfig c es) es).configMap = (mergeConfig c es).configMap :=
    foldInsert_id (effectiveValue c) es (mergeConfig c es).configMap hfind
  calc mergeConfig (mergeConfig c es) es
      = { mergeConfig c es with
          configMap := (mergeConfig (mergeConfig c es) es).configMap } := rfl
    _ = { mergeConfig c es with configMap := (mergeConfig c es).configMap } := by rw [key]
    _ = mergeConfig c es := rfl

theorem mergeIdempotent_witness :
    (([("a", "1"), ("b", "2")].map Prod.fst).Nodup : Prop)
    ∧ mergeConfig (mergeConfig newBuilder [("a", "1"), ("b", "2")]) [("a", "1"), ("b", "2")]
        = mergeConfig newBuilder [("a", "1"), ("b", "2")] :=
  ⟨by decide, mergeIdempotent newBuilder [("a", "1"), ("b", "2")] (by decide)⟩

/-- C2 counterexample: with a configured pre-processor the stored value is
the pre-processor's output verbatim — here the constantly-empty function —
so a merge through `From`-style lines stores an empty value. -/
theorem preProcessedValueMayBeEmpty :
    mapFind (runMerges (withValuePreProcessor newBuilder (fun _ _ => "")) [["A=b"]]).configMap
        "a" = some "" := by
  decide

theorem stringsToMap_entries (ss : List String) :
    ∀ p ∈ stringsToMap ss, p.1 ≠ "" ∧ goToLower p.1 = p.1 ∧ p.2 ≠ "" := by
  have gen : ∀ (ss : List String) (m : List (String × String)),
      (∀ p ∈ m, p.1 ≠ "" ∧ goToLower p.1 = p.1 ∧ p.2 ≠ "") →
      ∀ p ∈ ss.foldl
          (fun m s =>
            match normalizeLine s with
            | none => m
            | some (k, v) => mapInsert m k v)
          m,
        p.1 ≠ "" ∧ goToLower p.1 = p.1 ∧ p.2 ≠ "" := by
    intro ss
    induction ss with
    | nil => intro m hm; simpa using hm
    | cons s rest ih =>
      intro m hm p hp
      simp only [List.foldl_cons] at hp
      cases hn : normalizeLine s with
      | none =>
        rw [hn] at hp
        exact ih m hm p hp
      | some kv =>
        obtain ⟨k, v⟩ := kv
        rw [hn] at hp
        refine ih (mapInsert m k v) ?_ p hp
        intro q hq
        rcases mem_mapInsert m k v q hq with he | hmq
        · rw [he]
          exact normalizeLine_sound s k v hn
        · exact hm q hmq
  exact fun p hp => gen ss [] (by simp) p hp

theorem runMerges_entries (pre : Option (String → String → String)) :
    ∀ (srcs : List (List String)) (c : Builder),
      c.valuePreProcessor = pre →
      (∀ p ∈ c.configMap, p.1 ≠ "" ∧ goToLower p.1 = p.1 ∧ (pre = none → p.2 ≠ "")) →
      ∀ p ∈ (runMerges c srcs).configMap,
        p.1 ≠ "" ∧ goToLower p.1 = p.1 ∧ (pre = none → p.2 ≠ "") := by
  intro srcs
  induction srcs with
  | nil => intro c _ hinv; simpa [runMerges] using hinv
  | cons lines rest ih =>
    intro c hpre hinv
    intro p hp
    have hstep : ∀ q ∈ (fromLines c lines).configMap,
        q.1 ≠ "" ∧ goToLower q.1 = q.1 ∧ (pre = none → q.2 ≠ "") := by
      intro q hq
      rcases foldInsert_mem (effectiveValue c) (stringsToMap lines) c.configMap q hq
        with hold | ⟨r, hr, he⟩
      · exact hinv q hold
      · have hr3 := stringsToMap_entries lines r hr
        refine ⟨?_, ?_, ?_⟩
        · rw [he]
          exact hr3.1
        · rw [he]
          exact hr3.2.1
        · intro hnone
          rw [he]
          have : effectiveValue c r.1 r.2 = r.2 := by
            unfold effectiveValue
            rw [hpre, hnone]
          rw [this]
          exact hr3.2.2
    exact ih (fromLines c lines) hpre hstep p hp

/-- C2, amended: after any sequence of `From`/`FromEnv`-style merges every
key in the flat map is non-empty and lower-cased; every stored value is
non-empty when no pre-processor is configured (a configured pre-processor's
return value is stored verbatim and may be empty). -/
theorem mergedKeysLowerValuesNonEmpty
    (pre : Option (String → String → String)) (srcs : List (List String)) (k v : String)
    (h : mapFind (runMerges { newBuilder with valuePreProcessor := pre } srcs).configMap k
        = some v) :
    k ≠ "" ∧ goToLower k = k ∧ (pre = none → v ≠ "") := by
  have hmem := mapFind_mem _ _ _ h
  have := runMerges_entries pre srcs { newBuilder with valuePreProcessor := pre } rfl
    (by simp [newBuilder]) (k, v) hmem
  simpa using this

theorem mergedKeysLowerValuesNonEmpty_witness :
    (mapFind (runMerges { newBuilder with valuePreProcessor := none } [["A=b"]]).configMap "a"
        = some "b")
    ∧ ("a" ≠ "" ∧ goToLower "a" = "a"
        ∧ ((none : Option (String → String → String)) = none → "b" ≠ "")) :=
  ⟨by decide, mergedKeysLowerValuesNonEmpty none [["A=b"]] "a" "b" (by decide)⟩

theorem stringsToMap_eq_foldEntries (ss : List String) :
    stringsToMap ss =
      (ss.filterMap normalizeLine).foldl (fun m p => mapInsert m p.1 p.2) [] := by
  have gen : ∀ (ss : List String) (m : List (String × String)),
      ss.foldl
        (fun m s =>
          match normalizeLine s with
          | none => m
          | some (k, v) => mapInsert m k v)
        m
      = (ss.filterMap normalizeLine).foldl (fun m p => mapInsert m p.1 p.2) m := by
    intro ss
    induction ss with
    | nil => intro m; rfl
    | cons s rest ih =>
      intro m
      simp only [List.foldl_cons, List.filterMap_cons]
      cases hn : normalizeLine s with
      | none => simp [ih]
      | some kv =>
        obtain ⟨k, v⟩ := kv
        simp [ih]
  exact gen ss []

theorem splitFirstChar_eq_none (sep : Char) :
    ∀ cs : List Char, cs.contains sep = false → splitFirstChar sep cs = none := by
  intro cs
  induction cs with
  | nil => intro _; rfl
  | cons c rest ih =>
    intro h
    simp only [List.contains_cons, Bool.or_eq_false_iff, beq_eq_false_iff_ne, ne_eq] at h
    have hne : ¬c = sep := fun he => h.1 he.symm
    simp [splitFirstChar, hne, ih h.2]

theorem splitFirstChar_append (sep : Char) :
    ∀ (l r : List Char), l.contains sep = false →
      splitFirstChar sep (l ++ sep :: r) = some (l, r) := by
  intro l
  induction l with
  | nil => intro r _; simp [splitFirstChar]
  | cons c rest ih =>
    intro r h
    simp only [List.contains_cons, Bool.or_eq_false_iff, beq_eq_false_iff_ne, ne_eq] at h
    have hne : ¬c = sep := fun he => h.1 he.symm
    simp [splitFirstChar, hne, ih r h.2]

/-- C6: the normalizer's lookup equals the last normalized occurrence of a
key (lines lacking `=`, or with an empty key or value, contribute nothing;
a repeated key keeps the last occurrence in input order); a line without
`=` is discarded; a well-formed line is split at its first `=` with the
key lower-cased. -/
theorem stringsToMapSpec :
    (∀ (ss : List String) (k : String),
        mapFind (stringsToMap ss) k = lastVal (ss.filterMap normalizeLine) k)
    ∧ (∀ s : String, s.data.contains '=' = false → normalizeLine s = none)
    ∧ (∀ a b : String, a.data.contains '=' = false →
        normalizeLine (a ++ "=" ++ b) =
          if goToLower a ≠ "" ∧ b ≠ "" then some (goToLower a, b) else none) := by
  refine ⟨?_, ?_, ?_⟩
  · intro ss k
    rw [stringsToMap_eq_foldEntries]
    have h := foldInsert_find (fun _ v => v) (ss.filterMap normalizeLine) [] k
    simp only [] at h
    rw [h]
    cases hl : lastVal (ss.filterMap normalizeLine) k with
    | none => rfl
    | some v => rfl
  · intro s h
    unfold normalizeLine
    rw [splitFirstChar_eq_none '=' s.data h]
  · intro a b h
    have hd : (a ++ "=" ++ b).data = a.data ++ '=' :: b.data := by
      simp [String.data_append]
    unfold normalizeLine
    rw [hd, splitFirstChar_append '=' a.data b.data h]
    simp only []
    have h1 : (goToLower a ≠ "") ↔ (a.data.map goToLowerChar ≠ []) := by
      unfold goToLower
      rw [not_iff_not]
      exact string_mk_eq_empty (a.data.map goToLowerChar)
    have h2 : (b ≠ "") ↔ (b.data ≠ []) := by
      rw [not_iff_not]
      constructor
      · intro hb
        rw [hb]
      · intro hb
        have : b = ⟨b.data⟩ := rfl
        rw [this, string_mk_eq_empty]
        exact hb
    by_cases hc : a.data.map goToLowerChar ≠ [] ∧ b.data ≠ []
    · rw [if_pos hc, if_pos (by rw [h1, h2]; exact hc)]
      rfl
    · rw [if_neg hc, if_neg (by rw [h1, h2]; exact hc)]

theorem stringsToMapSpec_witness :
    (mapFind (stringsToMap ["A=b", "noeq", "A=c", "=x", "y="]) "a"
        = lastVal ((["A=b", "noeq", "A=c", "=x", "y="].filterMap normalizeLine)) "a")
    ∧ normalizeLine "noeq" = none
    ∧ normalizeLine ("Key" ++ "=" ++ "v=w")
        = if goToLower "Key" ≠ "" ∧ ("v=w" : String) ≠ ""
            then some (goToLower "Key", "v=w") else none :=
  ⟨stringsToMapSpec.1 ["A=b", "noeq", "A=c", "=x", "y="] "a",
   stringsToMapSpec.2.1 "noeq" (by decide),
   stringsToMapSpec.2.2 "Key" "v=w" (by decide)⟩

/-! ## Population-engine theorems -/

/-- C1 (the divergence): the converter's doc comment ("Errors in string
conversion are ignored, and the settable remains a zero value") fails for
range errors: `ParseInt("300", 10, 8)` returns the saturated value 127
alongside its range error, and the discarded error leaves 127 — not the
int8 zero value 0 — in the field. -/
theorem rangeErrorSaturatesNotZero :
    convertAndSetValue .int8 "300" = some (.vint .int8 127)
    ∧ populateStructRecursively (fromLines newBuilder ["V=300"])
        (.cons "V" none (.scalar .int8) .nil) "" = some [("V", .vint .int8 127)]
    ∧ zeroScalar .int8 = .vint .int8 0
    ∧ ((127 : Int) = 0 → False) := by
  refine ⟨rfl, rfl, rfl, by decide⟩

/-- C4: a tag trimming to the ignore sentinel `-` yields no key and leaves
the field (and its subtree) at its zero value whatever the map holds; a
non-empty trimmed tag overrides the field name in the derived key; an
absent or all-blank tag falls back to the field name; the key is the
lower-cased prefix-plus-name, and a nested record extends the prefix with
the `__` delimiter, so `Child.Name` derives `child__name`. -/
theorem keyDerivation :
    (∀ (name tag pre : String), goTrimSpace tag = "-" →
        getKey name (some tag) pre = none)
    ∧ (∀ (c : Builder) (name tag pre : String) (t : GoType), goTrimSpace tag = "-" →
        populateStructRecursively c (.cons name (some tag) t .nil) pre =
          some [(name, zeroValue t)])
    ∧ (∀ (name tag pre : String), goTrimSpace tag ≠ "-" → goTrimSpace tag ≠ "" →
        getKey name (some tag) pre = some (goToLower (pre ++ goTrimSpace tag)))
    ∧ (∀ (name pre : String), getKey name none pre = some (goToLower (pre ++ name)))
    ∧ (∀ (name tag pre : String), goTrimSpace tag = "" →
        getKey name (some tag) pre = some (goToLower (pre ++ name)))
    ∧ populateStructRecursively (fromLines newBuilder ["CHILD__NAME=x"])
        (.cons "Child" none (.struct (.cons "Name" none (.scalar .string) .nil)) .nil) ""
        = some [("Child", .vstruct [("Name", .vstr "x")])] := by
  refine ⟨?_, ?_, ?_, ?_, ?_, ?_⟩
  · intro name tag pre h
    unfold getKey
    simp [h]
  · intro c name tag pre t h
    have hk : getKey name (some tag) pre = none := by
      unfold getKey
      simp [h]
    simp [populateStructRecursively, hk]
  · intro name tag pre h1 h2
    unfold getKey
    simp [h1, h2]
  · intro name pre
    rfl
  · intro name tag pre h
    unfold getKey
    have hne : goTrimSpace tag ≠ "-" := by
      rw [h]
      decide
    simp [h, hne]
  · rfl

theorem keyDerivation_witness :
    (goTrimSpace " - " = "-" ∧ getKey "Secret" (some " - ") "p__" = none)
    ∧ (goTrimSpace " - " = "-"
        ∧ populateStructRecursively (fromLines newBuilder ["v=7"])
            (.cons "V" (some " - ") (.scalar .int) .nil) "" = some [("V", .vint .int 0)])
    ∧ (goTrimSpace " db_url " ≠ "-" ∧ goTrimSpace " db_url " ≠ ""
        ∧ getKey "Field" (some " db_url ") "P__"
            = some (goToLower ("P__" ++ goTrimSpace " db_url ")))
    ∧ getKey "Port" none "" = some (goToLower ("" ++ "Port"))
    ∧ (goTrimSpace "  " = ""
        ∧ getKey "Host" (some "  ") "" = some (goToLower ("" ++ "Host"))) :=
  ⟨⟨by decide, keyDerivation.1 "Secret" " - " "p__" (by decide)⟩,
   ⟨by decide, keyDerivation.2.1 (fromLines newBuilder ["v=7"]) "V" " - " "" (.scalar .int)
      (by decide)⟩,
   ⟨by decide, by decide,
      keyDerivation.2.2.1 "Field" " db_url " "P__" (by decide) (by decide)⟩,
   keyDerivation.2.2.2.1 "Port" "",
   ⟨by decide, keyDerivation.2.2.2.2.1 "Host" "  " "" (by decide)⟩⟩

/-- C5: `" a  b   c "` under the single-space delimiter decomposes to
exactly `["a","b","c"]`; an absent key reads as `""` and, like any value
that trims to nothing (in particular an all-whitespace one), produces the
empty token list and leaves the field a nil slice; a populated slice field
is never an allocated-but-empty sequence. -/
theorem sliceDecomposition :
    stringToSlice " a  b   c " " " = some ["a", "b", "c"]
    ∧ (∀ s d : String, d ≠ "" → goTrimSpace s = "" → stringToSlice s d = some [])
    ∧ (∀ s : String, s.data.all goIsSpace = true → goTrimSpace s = "")
    ∧ (∀ (c : Builder) (elem : ScalarType) (key : String), c.sliceDelim ≠ "" →
        goTrimSpace ((mapFind c.configMap key).getD "") = "" →
        populateFieldValue c (.slice elem) key = some (.vslice none))
    ∧ (∀ (c : Builder) (elem : ScalarType) (key : String),
        populateFieldValue c (.slice elem) key ≠ some (.vslice (some []))) := by
  refine ⟨?_, ?_, ?_, ?_, ?_⟩
  · rfl
  · intro s d hd ht
    simp [stringToSlice, hd, ht]
  · intro s h
    unfold goTrimSpace trimChars
    have h1 : s.data.dropWhile goIsSpace = [] := by
      rw [List.dropWhile_eq_nil_iff]
      intro x hx
      exact List.all_eq_true.mp h x hx
    rw [h1]
    rfl
  · intro c elem key hd ht
    simp [populateFieldValue, stringToSlice, hd, ht, convertAndSetSlice]
  · intro c elem key hcontra
    cases hs : stringToSlice ((mapFind c.configMap key).getD "") c.sliceDelim with
    | none => simp [populateFieldValue, hs] at hcontra
    | some values =>
      cases values with
      | nil => simp [populateFieldValue, hs, convertAndSetSlice] at hcontra
      | cons v0 vs =>
        cases hcv : convertAndSetValue elem v0 with
        | none =>
          simp [populateFieldValue, hs, convertAndSetSlice, convertList, hcv] at hcontra
        | some hv =>
          cases hcl : convertList elem vs with
          | none =>
            simp [populateFieldValue, hs, convertAndSetSlice, convertList, hcv, hcl]
              at hcontra
          | some tl =>
            simp [populateFieldValue, hs, convertAndSetSlice, convertList, hcv, hcl]
              at hcontra

theorem sliceDecomposition_witness :
    ((" " : String) ≠ "" ∧ goTrimSpace "   " = "" ∧ stringToSlice "   " " " = some [])
    ∧ ("   ".data.all goIsSpace = true ∧ goTrimSpace "   " = "")
    ∧ (newBuilder.sliceDelim ≠ ""
        ∧ goTrimSpace ((mapFind newBuilder.configMap "k").getD "") = ""
        ∧ populateFieldValue newBuilder (.slice .string) "k" = some (.vslice none))
    ∧ populateFieldValue newBuilder (.slice .string) "k" ≠ some (.vslice (some [])) :=
  ⟨⟨by decide, by decide, sliceDecomposition.2.1 "   " " " (by decide) (by decide)⟩,
   ⟨by decide, sliceDecomposition.2.2.1 "   " (by decide)⟩,
   ⟨by decide, by decide,
    sliceDecomposition.2.2.2.1 newBuilder .string "k" (by decide) (by decide)⟩,
   sliceDecomposition.2.2.2.2 newBuilder .string "k"⟩

/-- C10: the converter's type switch dispatches on the exact concrete type:
each of the fifteen built-in types converts (no panic) for every source
string, while any named scalar type — whatever its underlying primitive —
hits the default case and panics, aborting population immediately. -/
theorem converterExactTypeDispatch :
    (∀ (t : ScalarType) (s : String), isBuiltin t = true →
        (convertAndSetValue t s).isSome = true)
    ∧ (∀ (nm : String) (u : ScalarType) (s : String),
        convertAndSetValue (.named nm u) s = none)
    ∧ (∀ (c : Builder) (fname nm pre : String) (u : ScalarType),
        populateStructRecursively c (.cons fname none (.scalar (.named nm u)) .nil) pre
          = none) := by
  refine ⟨?_, ?_, ?_⟩
  · intro t s hb
    cases t <;> simp [convertAndSetValue, isBuiltin] at hb ⊢
  · intro nm u s
    rfl
  · intro c fname nm pre u
    simp [populateStructRecursively, getKey, populateFieldValue, convertAndSetValue]

theorem converterExactTypeDispatch_witness :
    (isBuiltin .int8 = true ∧ (convertAndSetValue .int8 "7").isSome = true)
    ∧ convertAndSetValue (.named "Port" .int) "8080" = none
    ∧ populateStructRecursively newBuilder
        (.cons "P" none (.scalar (.named "Port" .int)) .nil) "" = none :=
  ⟨⟨by decide, converterExactTypeDispatch.1 .int8 "7" (by decide)⟩,
   converterExactTypeDispatch.2.1 "Port" .int "8080",
   converterExactTypeDispatch.2.2 newBuilder "P" "Port" "" .int⟩

/-! ## Pre-processor theorems -/

theorem isPrefixOf_append_self : ∀ (l r : List Char), l.isPrefixOf (l ++ r) = true := by
  intro l r
  induction l with
  | nil => simp [List.isPrefixOf]
  | cons c cs ih => simp [List.isPrefixOf, ih]

theorem checkPrefixAndStrip_pos (pat r : List Char) :
    checkPrefixAndStrip pat (pat ++ r) = (r, true) := by
  unfold checkPrefixAndStrip
  rw [if_pos (by rw [isPrefixOf_append_self])]
  rw [List.drop_left]

theorem sm_not_prefix_of_ssm (r : List Char) :
    smPrefixChars.isPrefixOf (ssmPrefixChars ++ r) = false := by
  rw [show smPrefixChars = 's' :: 'm' :: ':' :: '/' :: '/' :: [] from rfl]
  rw [show ssmPrefixChars ++ r = 's' :: 's' :: 'm' :: ':' :: '/' :: '/' :: r from rfl]
  simp [List.isPrefixOf]

theorem splitOnChar_no_sep (sep : Char) :
    ∀ cs : List Char, cs.contains sep = false → splitOnChar sep cs = [cs] := by
  intro cs
  induction cs with
  | nil => intro _; rfl
  | cons c rest ih =>
    intro h
    simp only [List.contains_cons, Bool.or_eq_false_iff, beq_eq_false_iff_ne, ne_eq] at h
    have hne : ¬c = sep := fun he => h.1 he.symm
    simp [splitOnChar, hne, ih h.2]

theorem splitOnChar_append (sep : Char) :
    ∀ (l r : List Char), l.contains sep = false →
      splitOnChar sep (l ++ sep :: r) = l :: splitOnChar sep r := by
  intro l
  induction l with
  | nil => intro r _; simp [splitOnChar]
  | cons c rest ih =>
    intro r h
    simp only [List.contains_cons, Bool.or_eq_false_iff, beq_eq_false_iff_ne, ne_eq] at h
    have hne : ¬c = sep := fun he => h.1 he.symm
    have hr := ih r h.2
    simp only [List.cons_append, splitOnChar, if_neg hne, List.append_eq]
    rw [hr]

/-- A marker backend: the secret lookup tags its input with `SM:`, the
parameter lookup with `SSM:`, making the dispatch target observable. -/
def markerPre : AWSPre :=
  { decryptParameterStoreValues := true,
    getSecret := fun n => some ("SM:" ++ n),
    getParameter := fun n _ => some ("SSM:" ++ n) }

/-- C7: dispatch is decided by the anchored prefixes alone — a value with
neither prefix at its start (even one containing `sm://` elsewhere) is
returned unchanged, a value starting with `sm://` goes to the
secrets-manager with exactly the rest of the value as the secret name, and
a value starting with `ssm://` goes to the parameter store. -/
theorem prefixDispatchAnchored :
    (∀ key v : String, smPrefixChars.isPrefixOf v.data = false →
        ssmPrefixChars.isPrefixOf v.data = false →
        processConfigItem markerPre key v = some v)
    ∧ (∀ key rest : String, rest.data.contains '#' = false →
        processConfigItem markerPre key ("sm://" ++ rest) = some ("SM:" ++ rest))
    ∧ (∀ key rest : String,
        processConfigItem markerPre key ("ssm://" ++ rest) = some ("SSM:" ++ rest)) := by
  refine ⟨?_, ?_, ?_⟩
  · intro key v h1 h2
    simp [processConfigItem, checkPrefixAndStrip, h1, h2]
  · intro key rest h
    have hd : ("sm://" ++ rest).data = smPrefixChars ++ rest.data := String.data_append _ _
    have hsplit : splitOnChar '#' rest.data = [rest.data] := splitOnChar_no_sep '#' _ h
    simp only [processConfigItem, hd, checkPrefixAndStrip_pos, checkPostfixAndStrip, hsplit,
      if_true]
    rfl
  · intro key rest
    have hd : ("ssm://" ++ rest).data = ssmPrefixChars ++ rest.data := String.data_append _ _
    have hnp : smPrefixChars.isPrefixOf (ssmPrefixChars ++ rest.data) = false :=
      sm_not_prefix_of_ssm rest.data
    simp only [processConfigItem, hd, checkPrefixAndStrip, hnp, Bool.false_eq_true, if_false,
      isPrefixOf_append_self, if_true, List.drop_left]
    rfl

theorem prefixDispatchAnchored_witness :
    (smPrefixChars.isPrefixOf "x sm://y".data = false
      ∧ ssmPrefixChars.isPrefixOf "x sm://y".data = false
      ∧ processConfigItem markerPre "k" "x sm://y" = some "x sm://y")
    ∧ ("small_foo_bar".data.contains '#' = false
      ∧ processConfigItem markerPre "k" ("sm://" ++ "small_foo_bar")
          = some ("SM:" ++ "small_foo_bar"))
    ∧ processConfigItem markerPre "k" ("ssm://" ++ "ssmall_foo_bar")
        = some ("SSM:" ++ "ssmall_foo_bar") :=
  ⟨⟨by decide, by decide, prefixDispatchAnchored.1 "k" "x sm://y" (by decide) (by decide)⟩,
   ⟨by decide, prefixDispatchAnchored.2.1 "k" "small_foo_bar" (by decide)⟩,
   prefixDispatchAnchored.2.2 "k" "ssmall_foo_bar"⟩

theorem string_data_ne_nil (s : String) (h : s ≠ "") : s.data ≠ [] := by
  intro he
  exact h ((string_mk_eq_empty s.data).mpr he)

theorem processConfigItem_subkey (p : AWSPre) (key name sub : String)
    (hn : name.data.contains '#' = false) (hs : sub.data.contains '#' = false)
    (hsub : sub ≠ "") :
    processConfigItem p key ("sm://" ++ name ++ "#" ++ sub) =
      match p.getSecret name with
      | none => none
      | some secret =>
        match parseStringMap secret with
        | none => none
        | some jsonMap =>
          match mapFind jsonMap sub with
          | some sv => some sv
          | none => none := by
  have hd : ("sm://" ++ name ++ "#" ++ sub).data
      = smPrefixChars ++ (name.data ++ '#' :: sub.data) := by
    simp [String.data_append, smPrefixChars]
  have hsplit : splitOnChar '#' (name.data ++ '#' :: sub.data)
      = name.data :: [sub.data] := by
    rw [splitOnChar_append '#' name.data sub.data hn, splitOnChar_no_sep '#' sub.data hs]
  have hsd : ¬sub.data = [] := string_data_ne_nil sub hsub
  simp only [processConfigItem, hd, checkPrefixAndStrip_pos, checkPostfixAndStrip, hsplit,
    if_true, if_neg hsd]

/-- The secret payload `{"user":"alice","pass":"x"}` of the end-to-end
scenario. -/
def jsonSecretValue : String := "\x7b\"user\":\"alice\",\"pass\":\"x\"\x7d"

/-- A backend holding only the secret `my_secret` with the JSON payload
above. -/
def myBackend : AWSPre :=
  { decryptParameterStoreValues := false,
    getSecret := fun n => if n = "my_secret" then some jsonSecretValue else none,
    getParameter := fun _ _ => none }

/-- C8: a `sm://name#subkey` value fetches secret `name`, parses its
payload as a JSON object of string fields and yields the `subkey` field;
a missing subkey and an unparsable payload are fatal (`none`); merging
`foo ↦ sm://my_secret#user` against a backend answering
`{"user":"alice","pass":"x"}` stores `"alice"` under `foo`. -/
theorem subkeySelection :
    (∀ (p : AWSPre) (key name sub payload v : String) (m : List (String × String)),
        name.data.contains '#' = false → sub.data.contains '#' = false → sub ≠ "" →
        p.getSecret name = some payload → parseStringMap payload = some m →
        mapFind m sub = some v →
        processConfigItem p key ("sm://" ++ name ++ "#" ++ sub) = some v)
    ∧ (∀ (p : AWSPre) (key name sub payload : String) (m : List (String × String)),
        name.data.contains '#' = false → sub.data.contains '#' = false → sub ≠ "" →
        p.getSecret name = some payload → parseStringMap payload = some m →
        mapFind m sub = none →
        processConfigItem p key ("sm://" ++ name ++ "#" ++ sub) = none)
    ∧ (∀ (p : AWSPre) (key name sub payload : String),
        name.data.contains '#' = false → sub.data.contains '#' = false → sub ≠ "" →
        p.getSecret name = some payload → parseStringMap payload = none →
        processConfigItem p key ("sm://" ++ name ++ "#" ++ sub) = none)
    ∧ processConfigItem myBackend "foo" "sm://my_secret#user" = some "alice"
    ∧ mapFind (mergeConfig
        (withValuePreProcessor newBuilder
          (fun k v => (processConfigItem myBackend k v).getD ""))
        [("foo", "sm://my_secret#user")]).configMap "foo" = some "alice" := by
  refine ⟨?_, ?_, ?_, ?_, ?_⟩
  · intro p key name sub payload v m hn hs hsub hsec hparse hfind
    rw [processConfigItem_subkey p key name sub hn hs hsub]
    simp only [hsec, hparse, hfind]
  · intro p key name sub payload m hn hs hsub hsec hparse hfind
    rw [processConfigItem_subkey p key name sub hn hs hsub]
    simp only [hsec, hparse, hfind]
  · intro p key name sub payload hn hs hsub hsec hparse
    rw [processConfigItem_subkey p key name sub hn hs hsub]
    simp only [hsec, hparse]
  · decide
  · decide

theorem subkeySelection_witness :
    ("my_secret".data.contains '#' = false
      ∧ "user".data.contains '#' = false
      ∧ ("user" : String) ≠ ""
      ∧ myBackend.getSecret "my_secret" = some jsonSecretValue
      ∧ parseStringMap jsonSecretValue = some [("user", "alice"), ("pass", "x")]
      ∧ mapFind [("user", "alice"), ("pass", "x")] "user" = some "alice")
    ∧ processConfigItem myBackend "foo" ("sm://" ++ "my_secret" ++ "#" ++ "user")
        = some "alice" :=
  ⟨⟨by decide, by decide, by decide, by decide, by decide, by decide⟩,
   subkeySelection.1 myBackend "foo" "my_secret" "user" jsonSecretValue "alice"
     [("user", "alice"), ("pass", "x")]
     (by decide) (by decide) (by decide) (by decide) (by decide) (by decide)⟩
